import Mathlib

/-!
Verification of the `ring_buffer` repository: a bounded MPMC asynchronous
channel built from a fixed-capacity ring buffer (`src/ring_buffer.rs`) and a
channel layer (`src/channel.rs`, `src/channel_repl.rs`).

The embedding is shallow: `MaybeUninit<T>` slots become `Option α` (with
`none` for uninitialized), the two cursors are `Nat` counters reduced modulo
the capacity exactly as in the source, and the stateful poll functions of the
futures become pure state-passing functions.  Wakers are abstract tokens.
-/

namespace RingBufferSpec

instance {ε α : Type} [DecidableEq ε] [DecidableEq α] : DecidableEq (Except ε α)
  | Except.error x, Except.error y =>
    if h : x = y then isTrue (by rw [h])
    else isFalse (by intro hh; cases hh; exact h rfl)
  | Except.error _, Except.ok _ => isFalse (by intro h; cases h)
  | Except.ok _, Except.error _ => isFalse (by intro h; cases h)
  | Except.ok x, Except.ok y =>
    if h : x = y then isTrue (by rw [h])
    else isFalse (by intro hh; cases hh; exact h rfl)

/-- A waker token, standing for `std::task::Waker`. -/
abbrev Waker := Nat

/-- The result of polling a future: `std::task::Poll`. -/
inductive Poll (α : Type) : Type
  | pending : Poll α
  | ready : α → Poll α
deriving DecidableEq

/-- `SendError` from `channel.rs` / `channel_repl.rs`. -/
inductive SendError : Type
  | bufferFull : SendError
  | closed : SendError
deriving DecidableEq

/-- `RingBuffer<T>` from `ring_buffer.rs`: a vector of maybe-uninitialized
slots, the declared capacity, the write cursor `head` and the read cursor
`tail`.  The mutex only serializes access and carries no data, so it is not
part of the state. -/
structure RingBuffer (α : Type) : Type where
  buffer : List (Option α)
  capacity : Nat
  head : Nat
  tail : Nat
deriving DecidableEq

namespace RingBuffer

/-- `usize::is_power_of_two`, by its documented semantics: `n` equals `2^k`
for some `k`.  Since `k < 2^k`, searching exponents up to `n` is exhaustive. -/
def isPowerOfTwo (n : Nat) : Bool :=
  (List.range (n + 1)).any fun k => n == 2 ^ k

/-- `RingBuffer::new(capacity)`.  The source asserts that `capacity` is a
power of two (a panic on violation, modelled as `none`), then allocates
`capacity` uninitialized slots with both cursors at 0. -/
def new (α : Type) (capacity : Nat) : Option (RingBuffer α) :=
  if isPowerOfTwo capacity then
    some { buffer := List.replicate capacity none
           capacity := capacity
           head := 0
           tail := 0 }
  else
    none

/-- `RingBuffer::is_empty`: `head == tail`. -/
def is_empty (rb : RingBuffer α) : Bool :=
  rb.head == rb.tail

/-- `RingBuffer::is_full`: `(head + 1) % capacity == tail`. -/
def is_full (rb : RingBuffer α) : Bool :=
  (rb.head + 1) % rb.capacity == rb.tail

/-- `RingBuffer::push`: under the lock, if the buffer is full return
`Err(value)` leaving the state untouched; otherwise write the value into the
slot at `head` and advance `head` modulo the capacity.  Returns the result
together with the post-state. -/
def push (rb : RingBuffer α) (value : α) : Except α Unit × RingBuffer α :=
  if rb.is_full then
    (Except.error value, rb)
  else
    (Except.ok (),
     { rb with
         buffer := rb.buffer.set rb.head (some value)
         head := (rb.head + 1) % rb.capacity })

/-- `RingBuffer::pop`: under the lock, if the buffer is empty return `None`
leaving the state untouched; otherwise move the value out of the slot at
`tail` (the slot becomes logically uninitialized) and advance `tail` modulo
the capacity. -/
def pop (rb : RingBuffer α) : Option α × RingBuffer α :=
  if rb.is_empty then
    (none, rb)
  else
    (rb.buffer.getD rb.tail none,
     { rb with
         buffer := rb.buffer.set rb.tail none
         tail := (rb.tail + 1) % rb.capacity })

/-- The loop body of `Drop for RingBuffer`: starting at `current`, while
`current != head`, record the slot index being released and step
`current = (current + 1) % capacity`.  The source loop terminates because
at most `capacity` distinct cursor values exist; the fuel argument makes
that termination explicit. -/
def dropWalk (cap hd : Nat) : Nat → Nat → List Nat
  | _, 0 => []
  | current, fuel + 1 =>
    if current = hd then []
    else current :: dropWalk cap hd ((current + 1) % cap) fuel

/-- The slot indices whose contents `Drop for RingBuffer` releases, in
release order. -/
def releasedIndices (rb : RingBuffer α) : List Nat :=
  dropWalk rb.capacity rb.head rb.tail rb.capacity

/-- Structural well-formedness: positive capacity, slot vector of exactly
`capacity` slots, both cursors in range. -/
def wf (rb : RingBuffer α) : Prop :=
  0 < rb.capacity ∧ rb.buffer.length = rb.capacity ∧
    rb.head < rb.capacity ∧ rb.tail < rb.capacity

instance (rb : RingBuffer α) : Decidable rb.wf := by
  unfold wf; infer_instance

/-- The occupancy of the buffer: the number of live slots,
`(head + capacity - tail) % capacity`. -/
def occ (rb : RingBuffer α) : Nat :=
  (rb.head + rb.capacity - rb.tail) % rb.capacity

/-- The live slot indices, walking from `tail` for `occ` steps (the half-open
range `[tail, head)` modulo the capacity). -/
def liveIdx (rb : RingBuffer α) : List Nat :=
  (List.range rb.occ).map fun i => (rb.tail + i) % rb.capacity

/-- The abstract contents of the buffer: the slots of the live range, oldest
first. -/
def contents (rb : RingBuffer α) : List (Option α) :=
  rb.liveIdx.map fun i => rb.buffer.getD i none

/-- The initialization invariant of `ring_buffer.rs`: a slot holds a value
exactly when its index lies in the live range `[tail, head)`. -/
def Inv (rb : RingBuffer α) : Prop :=
  rb.wf ∧ ∀ i < rb.capacity, (i ∈ rb.liveIdx ↔ (rb.buffer.getD i none).isSome)

instance (rb : RingBuffer Nat) : Decidable rb.Inv := by
  unfold Inv; infer_instance

/-- One buffer operation, for stating closure of the invariant under
arbitrary operation sequences. -/
inductive Op (α : Type) : Type
  | push : α → Op α
  | pop : Op α

/-- Apply one operation, keeping only the post-state. -/
def applyOp (rb : RingBuffer α) : Op α → RingBuffer α
  | Op.push v => (rb.push v).2
  | Op.pop => rb.pop.2

/-- Apply a sequence of operations from left to right. -/
def applyOps (rb : RingBuffer α) : List (Op α) → RingBuffer α
  | [] => rb
  | op :: rest => applyOps (rb.applyOp op) rest

/-- Number of consecutive successful pushes of `0` until the first failure
(bounded by the fuel). -/
def fillCount (rb : RingBuffer Nat) : Nat → Nat
  | 0 => 0
  | fuel + 1 =>
    match rb.push 0 with
    | (Except.ok _, rb') => fillCount rb' fuel + 1
    | (Except.error _, _) => 0

end RingBuffer

/-- `ChannelInner<T>` shared state from `channel.rs` (and its duplicate in
`channel_repl.rs`): the ring buffer, the two FIFO wait-lists (front of the
`VecDeque` at the head of the list), the strong count of the sender-liveness
`Arc<()>` (the inner's own `sender_count` clone plus one `_sender_ref` per
live `Sender` handle), and the declared capacity. -/
structure ChannelInner (α : Type) : Type where
  buffer : RingBuffer α
  waiting_senders : List Waker
  waiting_receivers : List Waker
  strongCount : Nat
  capacity : Nat
deriving DecidableEq

/-- `channel::<T>(capacity)`: a fresh buffer, empty wait-lists, and a
sender-liveness Arc with two strong references (the inner's `sender_count`
and the returned Sender's `_sender_ref`).  `none` models the construction
panic on a bad capacity. -/
def channel (α : Type) (capacity : Nat) : Option (ChannelInner α) :=
  (RingBuffer.new α capacity).map fun rb =>
    { buffer := rb
      waiting_senders := []
      waiting_receivers := []
      strongCount := 2
      capacity := capacity }

/-- Outcome of polling a send future: the poll result, the channel
post-state, the value still stored in the future, and the wakers woken. -/
structure SendPollOut (α : Type) : Type where
  result : Poll (Except SendError Unit)
  chan : ChannelInner α
  val : Option α
  woken : List Waker
deriving DecidableEq

/-- Outcome of polling a receive future. -/
structure RecvPollOut (α : Type) : Type where
  result : Poll (Option α)
  chan : ChannelInner α
  woken : List Waker
deriving DecidableEq

/-- `SendFuture::poll` from `channel.rs`.  `value` is the future's stored
`Option<T>`, `w` the caller's waker.  First checks
`senders_alive = strong_count >= 1` and reports `Closed` otherwise; then
takes the stored value (if still present) and tries `push`: on success wakes
the front waiting receiver, on failure (full) re-stores the value and appends
the waker at the back of the waiting-senders list. -/
def sendPoll (chan : ChannelInner α) (value : Option α) (w : Waker) :
    SendPollOut α :=
  if 1 ≤ chan.strongCount then
    match value with
    | some res =>
      match chan.buffer.push res with
      | (Except.ok _, buf') =>
        match chan.waiting_receivers with
        | [] =>
          { result := Poll.ready (Except.ok ())
            chan := { chan with buffer := buf' }
            val := none
            woken := [] }
        | wk :: rest =>
          { result := Poll.ready (Except.ok ())
            chan := { chan with buffer := buf', waiting_receivers := rest }
            val := none
            woken := [wk] }
      | (Except.error rejected, buf') =>
        { result := Poll.pending
          chan := { chan with
                      buffer := buf'
                      waiting_senders := chan.waiting_senders ++ [w] }
          val := some rejected
          woken := [] }
    | none =>
      { result := Poll.pending, chan := chan, val := none, woken := [] }
  else
    { result := Poll.ready (Except.error SendError.closed)
      chan := chan
      val := value
      woken := [] }

/-- `SendFutureRepl::poll` from `channel_repl.rs`.  The sibling variant
computes `sender_count = strong_count > 1` and reports `Closed` when the
buffer is empty and that is false; the push logic is identical to
`SendFuture::poll`. -/
def sendPollRepl (chan : ChannelInner α) (value : Option α) (w : Waker) :
    SendPollOut α :=
  if chan.buffer.is_empty && !(decide (1 < chan.strongCount)) then
    { result := Poll.ready (Except.error SendError.closed)
      chan := chan
      val := value
      woken := [] }
  else
    match value with
    | some res =>
      match chan.buffer.push res with
      | (Except.ok _, buf') =>
        match chan.waiting_receivers with
        | [] =>
          { result := Poll.ready (Except.ok ())
            chan := { chan with buffer := buf' }
            val := none
            woken := [] }
        | wk :: rest =>
          { result := Poll.ready (Except.ok ())
            chan := { chan with buffer := buf', waiting_receivers := rest }
            val := none
            woken := [wk] }
      | (Except.error rej, buf') =>
        { result := Poll.pending
          chan := { chan with
                      buffer := buf'
                      waiting_senders := chan.waiting_senders ++ [w] }
          val := some rej
          woken := [] }
    | none =>
      { result := Poll.pending, chan := chan, val := none, woken := [] }

/-- `RecvFuture::poll` from `channel.rs`.  Computes
`senders_alive = strong_count > 1` and `buffer_empty`; if no sender is alive
and the buffer is empty reports `Ready(None)`; otherwise tries `pop`: on a
value, wakes the front waiting sender and reports it; on empty, appends the
caller's waker at the back of the waiting-receivers list and stays pending. -/
def recvPoll (chan : ChannelInner α) (w : Waker) : RecvPollOut α :=
  if !(decide (1 < chan.strongCount)) && chan.buffer.is_empty then
    { result := Poll.ready none, chan := chan, woken := [] }
  else
    match chan.buffer.pop with
    | (some v, buf') =>
      match chan.waiting_senders with
      | [] =>
        { result := Poll.ready (some v)
          chan := { chan with buffer := buf' }
          woken := [] }
      | wk :: rest =>
        { result := Poll.ready (some v)
          chan := { chan with buffer := buf', waiting_senders := rest }
          woken := [wk] }
    | (none, buf') =>
      { result := Poll.pending
        chan := { chan with
                    buffer := buf'
                    waiting_receivers := chan.waiting_receivers ++ [w] }
        woken := [] }

/-! ### Concrete states used to instantiate the theorems -/

/-- A capacity-4 buffer holding the values 1, 2 (at indices 2 and 3). -/
def rbTwo : RingBuffer Nat :=
  { buffer := [none, none, some 1, some 2], capacity := 4, head := 0, tail := 2 }

/-- A full capacity-4 buffer holding 1, 2, 3. -/
def rbFull : RingBuffer Nat :=
  { buffer := [some 1, some 2, some 3, none], capacity := 4, head := 3, tail := 0 }

/-- An empty capacity-4 buffer. -/
def rbEmpty : RingBuffer Nat :=
  { buffer := [none, none, none, none], capacity := 4, head := 0, tail := 0 }

/-- A channel over `rbTwo` with two live sender handles and both wait-lists
populated. -/
def chTwo : ChannelInner Nat :=
  { buffer := rbTwo, waiting_senders := [7, 8], waiting_receivers := [5, 6]
    strongCount := 3, capacity := 4 }

/-- A channel over a full buffer with one live sender handle. -/
def chFull : ChannelInner Nat :=
  { buffer := rbFull, waiting_senders := [7], waiting_receivers := []
    strongCount := 2, capacity := 4 }

/-- A drained channel with no live sender handles: only the permanent
internal reference remains. -/
def chDone : ChannelInner Nat :=
  { buffer := rbEmpty, waiting_senders := [], waiting_receivers := []
    strongCount := 1, capacity := 4 }

/-- An empty channel with one live sender handle. -/
def chIdle : ChannelInner Nat :=
  { buffer := rbEmpty, waiting_senders := [], waiting_receivers := []
    strongCount := 2, capacity := 4 }

/-! ### Modular-arithmetic helpers for the two cursors

Every index expression of the ring buffer is a sum of values below the
capacity, hence below `2 * capacity`; one case split removes the modulus. -/

theorem mod_two_cases (x cap : Nat) (h : x < 2 * cap) :
    x % cap = if x < cap then x else x - cap := by
  split
  · exact Nat.mod_eq_of_lt (by assumption)
  · rename_i h2
    push_neg at h2
    rw [Nat.mod_eq_sub_mod h2, Nat.mod_eq_of_lt (by omega)]

theorem occ_zero_iff (cap hd tl : Nat) (hcap : 0 < cap) (hh : hd < cap)
    (ht : tl < cap) : (hd + cap - tl) % cap = 0 ↔ hd = tl := by
  rw [mod_two_cases (hd + cap - tl) cap (by omega)]
  split <;> omega

theorem occ_lt (cap hd tl : Nat) (hcap : 0 < cap) : (hd + cap - tl) % cap < cap :=
  Nat.mod_lt _ hcap

/-- Advancing the read cursor by one (modulo the capacity) decrements the
occupancy, provided the buffer is not empty. -/
theorem occ_step_tail (cap hd tl : Nat) (hcap : 0 < cap) (hh : hd < cap)
    (ht : tl < cap) (hne : hd ≠ tl) :
    (hd + cap - (tl + 1) % cap) % cap + 1 = (hd + cap - tl) % cap := by
  by_cases h1 : tl + 1 < cap
  · rw [Nat.mod_eq_of_lt h1, mod_two_cases (hd + cap - (tl + 1)) cap (by omega),
      mod_two_cases (hd + cap - tl) cap (by omega)]
    split <;> split <;> omega
  · have h2 : tl + 1 = cap := by omega
    rw [h2, Nat.mod_self, Nat.sub_zero, mod_two_cases (hd + cap) cap (by omega),
      mod_two_cases (hd + cap - tl) cap (by omega)]
    split <;> split <;> omega

/-- Advancing the write cursor by one (modulo the capacity) increments the
occupancy, provided the buffer is not full. -/
theorem occ_step_head (cap hd tl : Nat) (hcap : 0 < cap) (hh : hd < cap)
    (ht : tl < cap) (hnf : (hd + 1) % cap ≠ tl) :
    ((hd + 1) % cap + cap - tl) % cap = (hd + cap - tl) % cap + 1 := by
  by_cases h1 : hd + 1 < cap
  · rw [Nat.mod_eq_of_lt h1] at hnf ⊢
    rw [mod_two_cases (hd + 1 + cap - tl) cap (by omega),
      mod_two_cases (hd + cap - tl) cap (by omega)]
    split <;> split <;> omega
  · have h2 : hd + 1 = cap := by omega
    rw [h2, Nat.mod_self] at hnf ⊢
    rw [Nat.zero_add, mod_two_cases (cap - tl) cap (by omega),
      mod_two_cases (hd + cap - tl) cap (by omega)]
    split <;> split <;> omega

/-- Walking `occ` steps from the read cursor lands on the write cursor. -/
theorem tail_add_occ (cap hd tl : Nat) (hcap : 0 < cap) (hh : hd < cap)
    (ht : tl < cap) : (tl + (hd + cap - tl) % cap) % cap = hd := by
  rw [mod_two_cases (hd + cap - tl) cap (by omega)]
  split
  · have h2 : tl + (hd + cap - tl) = hd + cap := by omega
    rw [h2, mod_two_cases (hd + cap) cap (by omega)]
    split <;> omega
  · have h2 : tl + (hd + cap - tl - cap) = hd := by omega
    rw [h2, Nat.mod_eq_of_lt hh]

/-- Offsets below the capacity are separated by the walk from a common
start: the slot map `i ↦ (tl + i) % cap` is injective below `cap`. -/
theorem idx_inj (cap tl i j : Nat) (hcap : 0 < cap) (ht : tl < cap)
    (hi : i < cap) (hj : j < cap) (he : (tl + i) % cap = (tl + j) % cap) :
    i = j := by
  rw [mod_two_cases (tl + i) cap (by omega),
    mod_two_cases (tl + j) cap (by omega)] at he
  split at he <;> split at he <;> omega

/-- No index of the live range is the write cursor. -/
theorem live_ne_head (cap hd tl i : Nat) (hcap : 0 < cap) (hh : hd < cap)
    (ht : tl < cap) (hi : i < (hd + cap - tl) % cap) : (tl + i) % cap ≠ hd := by
  intro he
  have h1 := tail_add_occ cap hd tl hcap hh ht
  have h2 : i = (hd + cap - tl) % cap :=
    idx_inj cap tl i ((hd + cap - tl) % cap) hcap ht
      (hi.trans (occ_lt cap hd tl hcap)) (occ_lt cap hd tl hcap)
      (he.trans h1.symm)
  omega

/-! ### List helpers -/

theorem getD_set_ne {α : Type} (l : List (Option α)) (i j : Nat)
    (x : Option α) (h : i ≠ j) : (l.set i x).getD j none = l.getD j none := by
  rw [List.getD_eq_getElem?_getD, List.getD_eq_getElem?_getD,
    List.getElem?_set_ne h]

theorem getD_set_self {α : Type} (l : List (Option α)) (i : Nat)
    (x : Option α) (h : i < l.length) : (l.set i x).getD i none = x := by
  rw [List.getD_eq_getElem?_getD, List.getElem?_set_eq_of_lt x h]
  rfl

/-! ### Live-range walk lemmas, raw cursor form -/

/-- Peeling the first live index: the live range from `tl` is `tl` followed
by the live range from `(tl + 1) % cap`. -/
theorem liveWalk_cons (cap hd tl : Nat) (hcap : 0 < cap) (hh : hd < cap)
    (ht : tl < cap) (hne : hd ≠ tl) :
    (List.range ((hd + cap - tl) % cap)).map (fun i => (tl + i) % cap) =
      tl :: (List.range ((hd + cap - (tl + 1) % cap) % cap)).map
        (fun i => ((tl + 1) % cap + i) % cap) := by
  have hocc := occ_step_tail cap hd tl hcap hh ht hne
  rw [← hocc, List.range_succ_eq_map, List.map_cons, List.map_map]
  congr 1
  · rw [Nat.add_zero, Nat.mod_eq_of_lt ht]
  · refine List.map_congr_left fun i _ => ?_
    show (tl + Nat.succ i) % cap = ((tl + 1) % cap + i) % cap
    rw [Nat.mod_add_mod]
    congr 1
    omega

/-- Appending the next live index: advancing the write cursor extends the
live range by the old write cursor. -/
theorem liveWalk_snoc (cap hd tl : Nat) (hcap : 0 < cap) (hh : hd < cap)
    (ht : tl < cap) (hnf : (hd + 1) % cap ≠ tl) :
    (List.range (((hd + 1) % cap + cap - tl) % cap)).map
        (fun i => (tl + i) % cap) =
      (List.range ((hd + cap - tl) % cap)).map (fun i => (tl + i) % cap)
        ++ [hd] := by
  have hocc := occ_step_head cap hd tl hcap hh ht hnf
  rw [hocc, List.range_succ, List.map_append]
  congr 1
  rw [List.map_singleton, tail_add_occ cap hd tl hcap hh ht]

namespace RingBuffer

variable {α : Type}

theorem is_empty_false_iff (rb : RingBuffer α) :
    rb.is_empty = false ↔ rb.head ≠ rb.tail := by
  unfold is_empty
  exact beq_eq_false_iff_ne

theorem is_full_false_iff (rb : RingBuffer α) :
    rb.is_full = false ↔ (rb.head + 1) % rb.capacity ≠ rb.tail := by
  unfold is_full
  exact beq_eq_false_iff_ne

/-- The post-state of a non-empty `pop`, explicitly. -/
theorem pop_state (rb : RingBuffer α) (h : rb.is_empty = false) :
    rb.pop = (rb.buffer.getD rb.tail none,
      { rb with buffer := rb.buffer.set rb.tail none
                tail := (rb.tail + 1) % rb.capacity }) := by
  simp [pop, h]

/-- The post-state of a non-full `push`, explicitly. -/
theorem push_state (rb : RingBuffer α) (v : α) (h : rb.is_full = false) :
    rb.push v = (Except.ok (),
      { rb with buffer := rb.buffer.set rb.head (some v)
                head := (rb.head + 1) % rb.capacity }) := by
  simp [push, h]

theorem liveIdx_pop (rb : RingBuffer α) (hwf : rb.wf)
    (h : rb.is_empty = false) :
    rb.liveIdx = rb.tail :: (rb.pop.2).liveIdx := by
  obtain ⟨hcap, hlen, hh, ht⟩ := hwf
  have hne : rb.head ≠ rb.tail := rb.is_empty_false_iff.mp h
  rw [pop_state rb h]
  simp only [liveIdx, occ]
  exact liveWalk_cons rb.capacity rb.head rb.tail hcap hh ht hne

theorem liveIdx_push (rb : RingBuffer α) (v : α) (hwf : rb.wf)
    (h : rb.is_full = false) :
    ((rb.push v).2).liveIdx = rb.liveIdx ++ [rb.head] := by
  obtain ⟨hcap, hlen, hh, ht⟩ := hwf
  have hnf : (rb.head + 1) % rb.capacity ≠ rb.tail := rb.is_full_false_iff.mp h
  rw [push_state rb v h]
  simp only [liveIdx, occ]
  exact liveWalk_snoc rb.capacity rb.head rb.tail hcap hh ht hnf

/-- Members of the live range of the popped state avoid the old read
cursor. -/
theorem mem_liveIdx_pop_ne_tail (rb : RingBuffer α) (hwf : rb.wf)
    (h : rb.is_empty = false) :
    ∀ x ∈ (rb.pop.2).liveIdx, x ≠ rb.tail := by
  obtain ⟨hcap, hlen, hh, ht⟩ := hwf
  have hne : rb.head ≠ rb.tail := rb.is_empty_false_iff.mp h
  rw [pop_state rb h]
  simp only [liveIdx, occ, List.mem_map, List.mem_range]
  rintro x ⟨i, hi, rfl⟩
  have hocc := occ_step_tail rb.capacity rb.head rb.tail hcap hh ht hne
  rw [Nat.mod_add_mod]
  intro he
  have h0 : (rb.tail + (1 + i)) % rb.capacity = (rb.tail + 0) % rb.capacity := by
    rw [Nat.add_zero, Nat.mod_eq_of_lt ht]
    rw [show rb.tail + (1 + i) = rb.tail + 1 + i by omega]
    exact he
  have hlt : (rb.head + rb.capacity - rb.tail) % rb.capacity < rb.capacity :=
    occ_lt _ _ _ hcap
  have := idx_inj rb.capacity rb.tail (1 + i) 0 hcap ht (by omega) hcap h0
  omega

/-- Members of the live range avoid the write cursor. -/
theorem mem_liveIdx_ne_head (rb : RingBuffer α) (hwf : rb.wf) :
    ∀ x ∈ rb.liveIdx, x ≠ rb.head := by
  obtain ⟨hcap, hlen, hh, ht⟩ := hwf
  simp only [liveIdx, occ, List.mem_map, List.mem_range]
  rintro x ⟨i, hi, rfl⟩
  exact live_ne_head rb.capacity rb.head rb.tail i hcap hh ht hi

/-- Looking up slots away from the updated index is unaffected by the
update, pointwise along a list of indices. -/
theorem map_getD_set_ne (l : List (Option α)) (j : Nat) (x : Option α)
    (L : List Nat) (h : ∀ i ∈ L, i ≠ j) :
    L.map (fun i => (l.set j x).getD i none) =
      L.map (fun i => l.getD i none) :=
  List.map_congr_left fun i hi => getD_set_ne l j i x (Ne.symm (h i hi))

/-- A non-empty `pop` peels the oldest value off the abstract contents. -/
theorem contents_pop (rb : RingBuffer α) (hwf : rb.wf)
    (h : rb.is_empty = false) :
    rb.contents = rb.buffer.getD rb.tail none :: (rb.pop.2).contents := by
  have hcons := rb.liveIdx_pop hwf h
  have hmem := rb.mem_liveIdx_pop_ne_tail hwf h
  have hb : (rb.pop.2).buffer = rb.buffer.set rb.tail none := by
    rw [pop_state rb h]
  unfold contents
  rw [hcons, List.map_cons]
  congr 1
  simp only [hb]
  exact (map_getD_set_ne rb.buffer rb.tail none _ (fun i hi => hmem i hi)).symm

/-- A non-full `push` appends the new value to the abstract contents. -/
theorem contents_push (rb : RingBuffer α) (v : α) (hwf : rb.wf)
    (h : rb.is_full = false) :
    ((rb.push v).2).contents = rb.contents ++ [some v] := by
  have hsnoc := rb.liveIdx_push v hwf h
  have hmem := rb.mem_liveIdx_ne_head hwf
  have hb : ((rb.push v).2).buffer = rb.buffer.set rb.head (some v) := by
    rw [push_state rb v h]
  obtain ⟨hcap, hlen, hh, ht⟩ := hwf
  unfold contents
  rw [hsnoc, List.map_append, List.map_singleton]
  congr 1
  · simp only [hb]
    exact map_getD_set_ne rb.buffer rb.head (some v) _ (fun i hi => hmem i hi)
  · simp only [hb]
    rw [getD_set_self rb.buffer rb.head (some v) (by omega)]

/-- `isPowerOfTwo` agrees with the mathematical characterization. -/
theorem isPowerOfTwo_iff (n : Nat) :
    isPowerOfTwo n = true ↔ ∃ k, n = 2 ^ k := by
  unfold isPowerOfTwo
  rw [List.any_eq_true]
  constructor
  · rintro ⟨k, _, he⟩
    exact ⟨k, by simpa using he⟩
  · rintro ⟨k, rfl⟩
    refine ⟨k, List.mem_range.mpr ?_, by simp⟩
    have := Nat.lt_two_pow k
    omega

/-- Construction yields a well-formed, empty buffer. -/
theorem new_wf (capacity : Nat) (rb : RingBuffer α)
    (h : new α capacity = some rb) :
    rb.wf ∧ rb.occ = 0 ∧ rb.head = 0 ∧ rb.tail = 0 ∧
      rb.capacity = capacity ∧ rb.buffer = List.replicate capacity none := by
  unfold new at h
  split at h
  · rename_i hpow
    obtain ⟨k, hk⟩ := (isPowerOfTwo_iff capacity).mp hpow
    have hpos : 0 < capacity := by
      rw [hk]; exact Nat.pos_pow_of_pos k (by omega)
    cases h
    refine ⟨⟨hpos, List.length_replicate .., hpos, hpos⟩, ?_, rfl, rfl, rfl, rfl⟩
    show (0 + capacity - 0) % capacity = 0
    simp
  · cases h

theorem wf_push (rb : RingBuffer α) (v : α) (hwf : rb.wf) :
    ((rb.push v).2).wf := by
  obtain ⟨hcap, hlen, hh, ht⟩ := hwf
  by_cases h : rb.is_full
  · simp [push, h]
    exact ⟨hcap, hlen, hh, ht⟩
  · rw [push_state rb v (by simpa using h)]
    exact ⟨hcap, by simpa using hlen, Nat.mod_lt _ hcap, ht⟩

theorem wf_pop (rb : RingBuffer α) (hwf : rb.wf) : (rb.pop.2).wf := by
  obtain ⟨hcap, hlen, hh, ht⟩ := hwf
  by_cases h : rb.is_empty
  · simp [pop, h]
    exact ⟨hcap, hlen, hh, ht⟩
  · rw [pop_state rb (by simpa using h)]
    exact ⟨hcap, by simpa using hlen, hh, Nat.mod_lt _ hcap⟩

/-- A successful push increments the occupancy by exactly one. -/
theorem occ_push (rb : RingBuffer α) (v : α) (hwf : rb.wf)
    (h : rb.is_full = false) : ((rb.push v).2).occ = rb.occ + 1 := by
  obtain ⟨hcap, hlen, hh, ht⟩ := hwf
  have hnf : (rb.head + 1) % rb.capacity ≠ rb.tail := rb.is_full_false_iff.mp h
  rw [push_state rb v h]
  show ((rb.head + 1) % rb.capacity + rb.capacity - rb.tail) % rb.capacity =
    rb.occ + 1
  exact occ_step_head rb.capacity rb.head rb.tail hcap hh ht hnf

/-- A successful pop decrements the occupancy by exactly one. -/
theorem occ_pop (rb : RingBuffer α) (hwf : rb.wf)
    (h : rb.is_empty = false) : (rb.pop.2).occ + 1 = rb.occ := by
  obtain ⟨hcap, hlen, hh, ht⟩ := hwf
  have hne : rb.head ≠ rb.tail := rb.is_empty_false_iff.mp h
  rw [pop_state rb h]
  show (rb.head + rb.capacity - (rb.tail + 1) % rb.capacity) % rb.capacity + 1 =
    rb.occ
  exact occ_step_tail rb.capacity rb.head rb.tail hcap hh ht hne

/-- A failed push (buffer full) leaves the state untouched. -/
theorem push_full_state (rb : RingBuffer α) (v : α) (h : rb.is_full = true) :
    rb.push v = (Except.error v, rb) := by
  simp [push, h]

/-- A failed pop (buffer empty) leaves the state untouched. -/
theorem pop_empty_state (rb : RingBuffer α) (h : rb.is_empty = true) :
    rb.pop = (none, rb) := by
  simp [pop, h]

theorem wf_applyOp (rb : RingBuffer α) (op : Op α) (hwf : rb.wf) :
    (rb.applyOp op).wf := by
  cases op with
  | push v => exact rb.wf_push v hwf
  | pop => exact rb.wf_pop hwf

theorem wf_applyOps (rb : RingBuffer α) (ops : List (Op α)) (hwf : rb.wf) :
    (rb.applyOps ops).wf := by
  induction ops generalizing rb with
  | nil => exact hwf
  | cons op rest ih => exact ih (rb.applyOp op) (rb.wf_applyOp op hwf)

theorem capacity_applyOps (rb : RingBuffer α) (ops : List (Op α)) :
    (rb.applyOps ops).capacity = rb.capacity := by
  induction ops generalizing rb with
  | nil => rfl
  | cons op rest ih =>
    rw [applyOps, ih]
    cases op with
    | push v =>
      show ((rb.push v).2).capacity = rb.capacity
      unfold push
      split <;> rfl
    | pop =>
      show (rb.pop.2).capacity = rb.capacity
      unfold pop
      split <;> rfl

/-- The destructor walk visits exactly the live range, in order. -/
theorem dropWalk_spec (cap hd : Nat) (hcap : 0 < cap) (hh : hd < cap) :
    ∀ fuel cur, cur < cap → (hd + cap - cur) % cap ≤ fuel →
      dropWalk cap hd cur fuel =
        (List.range ((hd + cap - cur) % cap)).map fun i => (cur + i) % cap := by
  intro fuel
  induction fuel with
  | zero =>
    intro cur hcur hocc
    have h0 : (hd + cap - cur) % cap = 0 := Nat.le_zero.mp hocc
    rw [h0]
    rfl
  | succ n ih =>
    intro cur hcur hocc
    by_cases he : cur = hd
    · have h0 : (hd + cap - cur) % cap = 0 :=
        (occ_zero_iff cap hd cur hcap hh hcur).mpr he.symm
      rw [h0]
      show (if cur = hd then [] else _) = _
      rw [if_pos he]
      rfl
    · have hne : hd ≠ cur := fun hx => he hx.symm
      have hstep := occ_step_tail cap hd cur hcap hh hcur hne
      show (if cur = hd then [] else
        cur :: dropWalk cap hd ((cur + 1) % cap) n) = _
      rw [if_neg he]
      rw [ih ((cur + 1) % cap) (Nat.mod_lt _ hcap) (by omega)]
      have hrw : (hd + cap - cur) % cap =
          (hd + cap - (cur + 1) % cap) % cap + 1 := by omega
      rw [hrw, List.range_succ_eq_map, List.map_cons, List.map_map]
      congr 1
      · rw [Nat.add_zero, Nat.mod_eq_of_lt hcur]
      · refine (List.map_congr_left fun i _ => ?_).symm
        show (cur + Nat.succ i) % cap = ((cur + 1) % cap + i) % cap
        rw [Nat.mod_add_mod]
        congr 1
        omega

end RingBuffer

/-! ### Claim theorems -/

/-- Claim C3: for every `RingBuffer`, `is_empty` returns true exactly when
`head == tail`, `is_full` returns true exactly when
`(head + 1) mod capacity == tail`, and consequently a well-formed buffer
holds at most `capacity - 1` values at once (usable capacity is
`capacity - 1`). -/
theorem ringBuffer_empty_full_usable_capacity {α : Type} (rb : RingBuffer α) :
    (rb.is_empty = true ↔ rb.head = rb.tail) ∧
    (rb.is_full = true ↔ (rb.head + 1) % rb.capacity = rb.tail) ∧
    (rb.wf → rb.contents.length ≤ rb.capacity - 1) := by
  refine ⟨beq_iff_eq, beq_iff_eq, fun hwf => ?_⟩
  obtain ⟨hcap, hlen, hh, ht⟩ := hwf
  have hlt := occ_lt rb.capacity rb.head rb.tail hcap
  unfold RingBuffer.contents RingBuffer.liveIdx
  rw [List.length_map, List.length_map, List.length_range]
  unfold RingBuffer.occ at hlt ⊢
  omega

theorem ringBuffer_empty_full_usable_capacity_witness :
    (rbTwo.is_empty = true ↔ rbTwo.head = rbTwo.tail) ∧
    (rbTwo.is_full = true ↔ (rbTwo.head + 1) % rbTwo.capacity = rbTwo.tail) ∧
    rbTwo.contents.length ≤ rbTwo.capacity - 1 := by
  have h := ringBuffer_empty_full_usable_capacity rbTwo
  exact ⟨h.1, h.2.1, h.2.2 (by decide)⟩

/-- Claim C4: `push` on a full buffer returns `Err` carrying exactly the
given value and leaves the whole state unchanged; otherwise it writes the
value into the slot at `head`, advances `head` modulo the capacity leaving
`tail` (and every other field) unchanged, and returns `Ok`.  No push
discards a value. -/
theorem push_full_rejects_else_writes_at_head {α : Type}
    (rb : RingBuffer α) (v : α) :
    (rb.is_full = true → rb.push v = (Except.error v, rb)) ∧
    (rb.is_full = false →
      rb.push v = (Except.ok (),
        { rb with buffer := rb.buffer.set rb.head (some v)
                  head := (rb.head + 1) % rb.capacity })) :=
  ⟨fun h => rb.push_full_state v h, fun h => rb.push_state v h⟩

theorem push_full_rejects_else_writes_at_head_witness :
    rbFull.push 9 = (Except.error 9, rbFull) ∧
    rbTwo.push 9 = (Except.ok (),
      { rbTwo with buffer := rbTwo.buffer.set rbTwo.head (some 9)
                   head := (rbTwo.head + 1) % rbTwo.capacity }) :=
  ⟨(push_full_rejects_else_writes_at_head rbFull 9).1 (by decide),
   (push_full_rejects_else_writes_at_head rbTwo 9).2 (by decide)⟩

/-- Claim C5: `pop` returns `None` exactly on an empty buffer (leaving it
unchanged); otherwise it returns the slot at `tail` — the head of the
abstract FIFO contents, hence the oldest value pushed and not yet popped —
advancing `tail` by one modulo the capacity and leaving `head` unchanged.
Together with `push` appending at the back of the contents, repeated pops
return values in exactly push order. -/
theorem pop_returns_oldest_fifo {α : Type} (rb : RingBuffer α) :
    (rb.is_empty = true → rb.pop = (none, rb)) ∧
    (rb.is_empty = false → rb.wf →
      rb.pop.1 = rb.buffer.getD rb.tail none ∧
      (rb.pop.2).head = rb.head ∧
      (rb.pop.2).tail = (rb.tail + 1) % rb.capacity ∧
      rb.contents = rb.pop.1 :: (rb.pop.2).contents ∧
      (rb.Inv → rb.pop.1.isSome = true)) ∧
    (rb.is_full = false → rb.wf →
      ∀ v, ((rb.push v).2).contents = rb.contents ++ [some v]) := by
  refine ⟨fun h => rb.pop_empty_state h, fun h hwf => ?_,
    fun h hwf v => rb.contents_push v hwf h⟩
  have h1 : rb.pop.1 = rb.buffer.getD rb.tail none := by
    rw [rb.pop_state h]
  refine ⟨h1, by rw [rb.pop_state h], by rw [rb.pop_state h], ?_, ?_⟩
  · rw [h1]
    exact rb.contents_pop hwf h
  · intro hinv
    obtain ⟨⟨hcap, hlen, hh, ht⟩, hslots⟩ := hinv
    have hne : rb.head ≠ rb.tail := rb.is_empty_false_iff.mp h
    have hocc0 : rb.occ ≠ 0 := fun hz =>
      hne ((occ_zero_iff rb.capacity rb.head rb.tail hcap hh ht).mp hz)
    have hmem : rb.tail ∈ rb.liveIdx := by
      unfold RingBuffer.liveIdx
      refine List.mem_map.mpr ⟨0, List.mem_range.mpr (by omega), ?_⟩
      rw [Nat.add_zero, Nat.mod_eq_of_lt ht]
    rw [h1]
    exact ((hslots rb.tail ht).mp hmem)

theorem pop_returns_oldest_fifo_witness :
    rbEmpty.pop = (none, rbEmpty) ∧
    (rbTwo.pop.1 = rbTwo.buffer.getD rbTwo.tail none ∧
      (rbTwo.pop.2).head = rbTwo.head ∧
      (rbTwo.pop.2).tail = (rbTwo.tail + 1) % rbTwo.capacity ∧
      rbTwo.contents = rbTwo.pop.1 :: (rbTwo.pop.2).contents ∧
      rbTwo.pop.1.isSome = true) ∧
    ((rbTwo.push 9).2).contents = rbTwo.contents ++ [some 9] := by
  have h1 := (pop_returns_oldest_fifo rbEmpty).1 (by decide)
  have h2 := (pop_returns_oldest_fifo rbTwo).2.1 (by decide) (by decide)
  have h3 := (pop_returns_oldest_fifo rbTwo).2.2 (by decide) (by decide) 9
  exact ⟨h1, ⟨h2.1, h2.2.1, h2.2.2.1, h2.2.2.2.1, h2.2.2.2.2 (by decide)⟩, h3⟩

/-- Claim C9: the destructor walk releases exactly the slots of the
half-open range from `tail` to `head` (modulo the capacity, exclusive of
`head`), each exactly once and in order, touching no slot outside that
range; dropping an empty buffer releases nothing. -/
theorem drop_releases_exactly_live_range {α : Type} (rb : RingBuffer α)
    (hwf : rb.wf) :
    rb.releasedIndices = rb.liveIdx ∧
    rb.releasedIndices.Nodup ∧
    (rb.is_empty = true → rb.releasedIndices = []) ∧
    rb.releasedIndices.map (fun i => rb.buffer.getD i none) = rb.contents := by
  obtain ⟨hcap, hlen, hh, ht⟩ := hwf
  have hmain : rb.releasedIndices = rb.liveIdx := by
    unfold RingBuffer.releasedIndices RingBuffer.liveIdx RingBuffer.occ
    exact RingBuffer.dropWalk_spec rb.capacity rb.head hcap hh rb.capacity
      rb.tail ht (le_of_lt (Nat.mod_lt _ hcap))
  refine ⟨hmain, ?_, ?_, ?_⟩
  · rw [hmain]
    unfold RingBuffer.liveIdx
    refine List.Nodup.map_on ?_ (List.nodup_range _)
    intro x hx y hy he
    have hx2 := List.mem_range.mp hx
    have hy2 := List.mem_range.mp hy
    have hlt : rb.occ < rb.capacity := by
      unfold RingBuffer.occ
      exact occ_lt rb.capacity rb.head rb.tail hcap
    exact idx_inj rb.capacity rb.tail x y hcap ht (by omega) (by omega) he
  · intro he
    have hz : rb.occ = 0 :=
      (occ_zero_iff rb.capacity rb.head rb.tail hcap hh ht).mpr
        (beq_iff_eq.mp he)
    rw [hmain]
    unfold RingBuffer.liveIdx
    rw [hz]
    rfl
  · rw [hmain]
    rfl

theorem drop_releases_exactly_live_range_witness :
    (rbTwo.releasedIndices = rbTwo.liveIdx ∧
      rbTwo.releasedIndices.Nodup ∧
      rbTwo.releasedIndices.map (fun i => rbTwo.buffer.getD i none) =
        rbTwo.contents) ∧
    rbEmpty.releasedIndices = [] := by
  have h := drop_releases_exactly_live_range rbTwo (by decide)
  have h2 := drop_releases_exactly_live_range rbEmpty (by decide)
  exact ⟨⟨h.1, h.2.1, h.2.2.2⟩, h2.2.2.1 (by decide)⟩

/-- Claim C10: from a freshly constructed buffer, every sequence of push
and pop operations keeps both cursors below the capacity and the occupancy
`(head + capacity - tail) mod capacity` at most `capacity - 1`; a
successful push increments the occupancy by exactly one, a successful pop
decrements it by exactly one, and failed operations leave the state
unchanged. -/
theorem cursor_occupancy_invariant {α : Type} (capacity : Nat)
    (rb0 : RingBuffer α) (h : RingBuffer.new α capacity = some rb0) :
    (∀ ops : List (RingBuffer.Op α),
      (rb0.applyOps ops).wf ∧
      (rb0.applyOps ops).head < capacity ∧
      (rb0.applyOps ops).tail < capacity ∧
      (rb0.applyOps ops).occ ≤ capacity - 1) ∧
    (∀ rb : RingBuffer α, rb.wf → ∀ v : α,
      (rb.is_full = false → ((rb.push v).2).occ = rb.occ + 1) ∧
      (rb.is_full = true → (rb.push v).2 = rb) ∧
      (rb.is_empty = false → (rb.pop.2).occ + 1 = rb.occ) ∧
      (rb.is_empty = true → rb.pop.2 = rb)) := by
  obtain ⟨hwf0, hocc0, hh0, ht0, hcapeq, hbuf0⟩ := RingBuffer.new_wf capacity rb0 h
  constructor
  · intro ops
    have hwf := rb0.wf_applyOps ops hwf0
    have hcap2 : (rb0.applyOps ops).capacity = capacity := by
      rw [rb0.capacity_applyOps ops, hcapeq]
    obtain ⟨hcap, hlen, hh, ht⟩ := hwf
    have hlt := occ_lt (rb0.applyOps ops).capacity (rb0.applyOps ops).head
      (rb0.applyOps ops).tail hcap
    refine ⟨⟨hcap, hlen, hh, ht⟩, by omega, by omega, ?_⟩
    unfold RingBuffer.occ at hlt ⊢
    omega
  · intro rb hwf v
    refine ⟨fun hf => rb.occ_push v hwf hf, fun hf => ?_,
      fun he => rb.occ_pop hwf he, fun he => ?_⟩
    · rw [rb.push_full_state v hf]
    · rw [rb.pop_empty_state he]

theorem cursor_occupancy_invariant_witness :
    ((rbEmpty.applyOps [RingBuffer.Op.push 5, RingBuffer.Op.push 6, RingBuffer.Op.pop]).wf ∧
      (rbEmpty.applyOps [RingBuffer.Op.push 5, RingBuffer.Op.push 6, RingBuffer.Op.pop]).head < 4 ∧
      (rbEmpty.applyOps [RingBuffer.Op.push 5, RingBuffer.Op.push 6, RingBuffer.Op.pop]).tail < 4 ∧
      (rbEmpty.applyOps [RingBuffer.Op.push 5, RingBuffer.Op.push 6, RingBuffer.Op.pop]).occ ≤ 3) ∧
    ((rbTwo.push 9).2).occ = rbTwo.occ + 1 ∧
    (rbFull.push 9).2 = rbFull ∧
    (rbTwo.pop.2).occ + 1 = rbTwo.occ ∧
    rbEmpty.pop.2 = rbEmpty := by
  have h := cursor_occupancy_invariant 4 rbEmpty (by decide)
  have h2 := h.2 rbTwo (by decide) 9
  have h3 := h.2 rbFull (by decide) 9
  have h4 := h.2 rbEmpty (by decide) 9
  exact ⟨h.1 [RingBuffer.Op.push 5, RingBuffer.Op.push 6, RingBuffer.Op.pop],
    h2.1 (by decide), h3.2.1 (by decide), h2.2.2.1 (by decide),
    h4.2.2.2 (by decide)⟩

/-- Claim C6: construction fails fatally for every capacity that is not a
power of two — including 0 and 3 — both for `RingBuffer::new` and for
`channel`; for capacities 1, 2, 4 and 64 construction succeeds and the
buffer accepts exactly `capacity - 1` consecutive successful pushes from
empty before the next push fails. -/
theorem capacity_must_be_power_of_two :
    (∀ c : Nat, (¬ ∃ k, c = 2 ^ k) → RingBuffer.new Nat c = none) ∧
    (∀ c : Nat, (¬ ∃ k, c = 2 ^ k) → channel Nat c = none) ∧
    RingBuffer.new Nat 0 = none ∧
    RingBuffer.new Nat 3 = none ∧
    (RingBuffer.new Nat 1).map (fun rb => rb.fillCount 2) = some 0 ∧
    (RingBuffer.new Nat 2).map (fun rb => rb.fillCount 3) = some 1 ∧
    (RingBuffer.new Nat 4).map (fun rb => rb.fillCount 5) = some 3 ∧
    (RingBuffer.new Nat 64).map (fun rb => rb.fillCount 65) = some 63 := by
  have hnew : ∀ c : Nat, (¬ ∃ k, c = 2 ^ k) → RingBuffer.new Nat c = none := by
    intro c hc
    unfold RingBuffer.new
    rw [if_neg]
    intro hpow
    exact hc ((RingBuffer.isPowerOfTwo_iff c).mp hpow)
  refine ⟨hnew, fun c hc => ?_, by decide, by decide, by decide, by decide,
    by decide, by decide⟩
  unfold channel
  rw [hnew c hc]
  rfl

theorem capacity_must_be_power_of_two_witness :
    RingBuffer.new Nat 5 = none ∧ channel Nat 12 = none := by
  have h5 : ¬ ∃ k, 5 = 2 ^ k := by
    rintro ⟨k, hk⟩
    have h1 : k < 3 := by
      by_contra hx
      push_neg at hx
      have := Nat.pow_le_pow_right (show 1 ≤ 2 by omega) hx
      omega
    interval_cases k <;> revert hk <;> decide
  have h12 : ¬ ∃ k, 12 = 2 ^ k := by
    rintro ⟨k, hk⟩
    have h1 : k < 4 := by
      by_contra hx
      push_neg at hx
      have := Nat.pow_le_pow_right (show 1 ≤ 2 by omega) hx
      omega
    interval_cases k <;> revert hk <;> decide
  exact ⟨capacity_must_be_power_of_two.1 5 h5,
    capacity_must_be_power_of_two.2.1 12 h12⟩

/-- Claim C1: polling a send through a live Sender handle never yields
`Err(SendError::Closed)`.  In `channel.rs` the `!senders_alive` branch needs
the strong count of the sender-liveness Arc below 1, impossible while the
inner's own reference exists; in `channel_repl.rs` the variant reports
`Closed` only when the buffer is empty and the count is at most 1, while a
live Sender's own `_sender_ref` keeps the count at least 2. -/
theorem send_closed_unreachable_from_live_sender {α : Type}
    (chan : ChannelInner α) (value : Option α) (w : Waker) :
    (1 ≤ chan.strongCount →
      (sendPoll chan value w).result ≠
        Poll.ready (Except.error SendError.closed)) ∧
    (2 ≤ chan.strongCount →
      (sendPollRepl chan value w).result ≠
        Poll.ready (Except.error SendError.closed)) := by
  constructor
  · intro h
    unfold sendPoll
    rw [if_pos h]
    cases value with
    | none => simp
    | some res =>
      rcases hp : chan.buffer.push res with ⟨r1, buf'⟩
      cases r1 with
      | ok u =>
        cases chan.waiting_receivers <;> simp [hp]
      | error rej =>
        simp [hp]
  · intro h
    unfold sendPollRepl
    have hd : decide (1 < chan.strongCount) = true := by
      simp
      omega
    rw [hd]
    simp only [Bool.not_true, Bool.and_false, Bool.false_eq_true, if_false]
    cases value with
    | none => simp
    | some res =>
      rcases hp : chan.buffer.push res with ⟨r1, buf'⟩
      cases r1 with
      | ok u =>
        cases chan.waiting_receivers <;> simp [hp]
      | error rej =>
        simp [hp]

theorem send_closed_unreachable_from_live_sender_witness :
    (sendPoll chFull (some 9) 42).result ≠
      Poll.ready (Except.error SendError.closed) ∧
    (sendPollRepl chIdle (some 9) 42).result ≠
      Poll.ready (Except.error SendError.closed) :=
  ⟨(send_closed_unreachable_from_live_sender chFull (some 9) 42).1 (by decide),
   (send_closed_unreachable_from_live_sender chIdle (some 9) 42).2 (by decide)⟩

/-- Claim C2: `RecvFuture::poll` reports `Ready(None)` exactly when the
sender-liveness strong count does not exceed the one permanent internal
reference (count at most 1) and the buffer is empty; in that state the poll
leaves the channel untouched and registers nobody, so every subsequent
receive poll also reports `Ready(None)`. -/
theorem recv_ready_none_iff_closed {α : Type} (chan : ChannelInner α)
    (w w2 : Waker) :
    ((recvPoll chan w).result = Poll.ready none ↔
      chan.strongCount ≤ 1 ∧ chan.buffer.is_empty = true) ∧
    (chan.strongCount ≤ 1 → chan.buffer.is_empty = true →
      recvPoll chan w = { result := Poll.ready none, chan := chan, woken := [] } ∧
      (recvPoll ((recvPoll chan w).chan) w2).result = Poll.ready none) := by
  by_cases h1 : 1 < chan.strongCount
  · have hd : decide (1 < chan.strongCount) = true := by
      simp
      omega
    constructor
    · unfold recvPoll
      rw [hd]
      simp only [Bool.not_true, Bool.false_and, Bool.false_eq_true, if_false]
      constructor
      · intro hres
        exfalso
        rcases hp : chan.buffer.pop with ⟨r1, buf'⟩
        cases r1 with
        | none =>
          rw [hp] at hres
          simp at hres
        | some v =>
          rw [hp] at hres
          rcases hs : chan.waiting_senders with _ | ⟨wk, rest⟩ <;>
            rw [hs] at hres <;> simp at hres
      · rintro ⟨hc, -⟩
        omega
    · intro hc
      omega
  · have hd : decide (1 < chan.strongCount) = false := by
      simp
      omega
    by_cases h2 : chan.buffer.is_empty = true
    · have heq : recvPoll chan w =
          { result := Poll.ready none, chan := chan, woken := [] } := by
        unfold recvPoll
        rw [hd, h2]
        rfl
      constructor
      · rw [heq]
        exact ⟨fun _ => ⟨by omega, h2⟩, fun _ => rfl⟩
      · intro _ _
        refine ⟨heq, ?_⟩
        rw [heq]
        show (recvPoll chan w2).result = Poll.ready none
        unfold recvPoll
        rw [hd, h2]
        rfl
    · have h2f : chan.buffer.is_empty = false := by
        cases hx : chan.buffer.is_empty
        · rfl
        · exact absurd hx h2
      constructor
      · unfold recvPoll
        rw [hd, h2f]
        simp only [Bool.and_false, Bool.false_eq_true, if_false]
        constructor
        · intro hres
          exfalso
          rcases hp : chan.buffer.pop with ⟨r1, buf'⟩
          cases r1 with
          | none =>
            rw [hp] at hres
            simp at hres
          | some v =>
            rw [hp] at hres
            rcases hs : chan.waiting_senders with _ | ⟨wk, rest⟩ <;>
              rw [hs] at hres <;> simp at hres
        · rintro ⟨-, hc⟩
          exact hc.elim
      · intro _ hc
        exact absurd hc h2

theorem recv_ready_none_iff_closed_witness :
    ((recvPoll chDone 42).result = Poll.ready none ↔
      chDone.strongCount ≤ 1 ∧ chDone.buffer.is_empty = true) ∧
    recvPoll chDone 42 =
      { result := Poll.ready none, chan := chDone, woken := [] } ∧
    (recvPoll ((recvPoll chDone 42).chan) 43).result = Poll.ready none := by
  have h := recv_ready_none_iff_closed chDone 42 43
  exact ⟨h.1, h.2 (by decide) (by decide)⟩

/-- Claim C7: the non-success paths of `SendFuture::poll`.  Once the stored
value has been taken by a completed prior poll, every later poll returns
`Pending` touching neither the buffer nor the wait-lists; and when the push
fails because the buffer is full, the caller's waker is appended at the back
of the waiting-senders list, the value is put back into the future, and
`Pending` is returned. -/
theorem send_poll_nonsuccess_paths {α : Type} (chan : ChannelInner α)
    (v : α) (w : Waker) :
    (1 ≤ chan.strongCount →
      sendPoll chan none w =
        { result := Poll.pending, chan := chan, val := none, woken := [] }) ∧
    (1 ≤ chan.strongCount → chan.buffer.is_full = true →
      sendPoll chan (some v) w =
        { result := Poll.pending
          chan := { chan with
                      waiting_senders := chan.waiting_senders ++ [w] }
          val := some v
          woken := [] }) := by
  constructor
  · intro h
    unfold sendPoll
    rw [if_pos h]
  · intro h hf
    unfold sendPoll
    rw [if_pos h]
    simp only [chan.buffer.push_full_state v hf]

theorem send_poll_nonsuccess_paths_witness :
    sendPoll chFull none 42 =
      { result := Poll.pending, chan := chFull, val := none, woken := [] } ∧
    sendPoll chFull (some 9) 42 =
      { result := Poll.pending
        chan := { chFull with
                    waiting_senders := chFull.waiting_senders ++ [42] }
        val := some 9
        woken := [] } :=
  ⟨(send_poll_nonsuccess_paths chFull 9 42).1 (by decide),
   (send_poll_nonsuccess_paths chFull 9 42).2 (by decide) (by decide)⟩

/-- Claim C8: the wake-up policy is one-waiter FIFO on both sides.  A
successful push wakes exactly the front entry of the consumer wait-list
(if any), removing it and touching no other waiter; a successful pop wakes
exactly the front entry of the producer wait-list; and registrations append
at the back, so wake-ups within one wait-list occur in registration order. -/
theorem wake_policy_fifo_one_waiter {α : Type} (chan : ChannelInner α)
    (v x : α) (w : Waker) :
    (1 ≤ chan.strongCount → chan.buffer.is_full = false →
      (sendPoll chan (some v) w).result = Poll.ready (Except.ok ()) ∧
      (sendPoll chan (some v) w).woken = chan.waiting_receivers.take 1 ∧
      (sendPoll chan (some v) w).chan.waiting_receivers =
        chan.waiting_receivers.drop 1 ∧
      (sendPoll chan (some v) w).chan.waiting_senders =
        chan.waiting_senders) ∧
    (chan.buffer.pop.1 = some x →
      (recvPoll chan w).result = Poll.ready (some x) ∧
      (recvPoll chan w).woken = chan.waiting_senders.take 1 ∧
      (recvPoll chan w).chan.waiting_senders = chan.waiting_senders.drop 1 ∧
      (recvPoll chan w).chan.waiting_receivers = chan.waiting_receivers) ∧
    (1 < chan.strongCount → chan.buffer.is_empty = true →
      (recvPoll chan w).result = Poll.pending ∧
      (recvPoll chan w).chan.waiting_receivers =
        chan.waiting_receivers ++ [w]) := by
  refine ⟨fun h hf => ?_, fun hp => ?_, fun h1 h2 => ?_⟩
  · unfold sendPoll
    rw [if_pos h]
    simp only [chan.buffer.push_state v hf]
    cases chan.waiting_receivers <;> simp
  · have hne : chan.buffer.is_empty = false := by
      cases hx : chan.buffer.is_empty
      · rfl
      · rw [chan.buffer.pop_empty_state hx] at hp
        cases hp
    unfold recvPoll
    rw [hne]
    simp only [Bool.and_false, Bool.false_eq_true, if_false]
    rcases hq : chan.buffer.pop with ⟨r1, buf'⟩
    rw [hq] at hp
    cases r1 with
    | none => cases hp
    | some y =>
      cases hp
      cases chan.waiting_senders <;> simp
  · have hd : decide (1 < chan.strongCount) = true := by
      simp
      omega
    unfold recvPoll
    rw [hd]
    simp only [Bool.not_true, Bool.false_and, Bool.false_eq_true, if_false]
    rw [chan.buffer.pop_empty_state h2]
    exact ⟨rfl, rfl⟩

theorem wake_policy_fifo_one_waiter_witness :
    ((sendPoll chTwo (some 9) 42).result = Poll.ready (Except.ok ()) ∧
      (sendPoll chTwo (some 9) 42).woken = chTwo.waiting_receivers.take 1 ∧
      (sendPoll chTwo (some 9) 42).chan.waiting_receivers =
        chTwo.waiting_receivers.drop 1 ∧
      (sendPoll chTwo (some 9) 42).chan.waiting_senders =
        chTwo.waiting_senders) ∧
    ((recvPoll chTwo 42).result = Poll.ready (some 1) ∧
      (recvPoll chTwo 42).woken = chTwo.waiting_senders.take 1 ∧
      (recvPoll chTwo 42).chan.waiting_senders =
        chTwo.waiting_senders.drop 1 ∧
      (recvPoll chTwo 42).chan.waiting_receivers =
        chTwo.waiting_receivers) ∧
    ((recvPoll chIdle 42).result = Poll.pending ∧
      (recvPoll chIdle 42).chan.waiting_receivers =
        chIdle.waiting_receivers ++ [42]) :=
  ⟨(wake_policy_fifo_one_waiter chTwo 9 1 42).1 (by decide) (by decide),
   (wake_policy_fifo_one_waiter chTwo 9 1 42).2.1 (by decide),
   (wake_policy_fifo_one_waiter chIdle 9 1 42).2.2 (by decide) (by decide)⟩

end RingBufferSpec
